import Mathlib

/-!
# A shallow embedding of litevec (lib.go) and proofs about its claims

The Go package computes word co-occurrence statistics.  Floating-point
values reachable in this code are exact rationals together with the IEEE
value +Inf (produced by dividing a positive number by zero); no NaN and no
-Inf is reachable on the code paths modelled here, as every accumulated
weight is a sum of values of the form 1/j with j a non-negative integer.
We therefore model float64 by the type FV below: an exact rational or +Inf.

The sparse CSR matrix from github.com/james-bowman/sparse is modelled by
its documented contract (At reads a cell, Set writes it, DoNonZero visits
the non-zero cells); the matrix is represented extensionally as a function
from index pairs to FV.
-/

namespace Litevec

/-- Model of the float64 values reachable in litevec: an exact rational
or IEEE +Inf.  (NaN and -Inf are unreachable on the modelled paths: all
accumulated weights are sums of non-negative terms and 1/0 = +Inf.) -/
inductive FV where
  | fin (q : ℚ)
  | inf
deriving DecidableEq, Repr

/-- IEEE addition restricted to FV: +Inf absorbs, finite values add exactly. -/
def FV.add : FV → FV → FV
  | .inf, _ => .inf
  | _, .inf => .inf
  | .fin a, .fin b => .fin (a + b)

/-- IEEE multiplication restricted to FV.  (+Inf times a finite value;
all multiplications performed by the code have positive finite factors or
a +Inf factor against a positive value, so the 0 * Inf = NaN corner is
unreachable.) -/
def FV.mul : FV → FV → FV
  | .inf, _ => .inf
  | _, .inf => .inf
  | .fin a, .fin b => .fin (a * b)

/-- Division of a value by a natural number count, as in the Go code's
`v / float64(len(...))`.  Inf/n = Inf; finite values divide exactly.
The only division with a zero count the code can reach divides the value
0 (an untouched cell), and 0/0 here is 0, matching the fact that
DoNonZero never visits that cell in the Go code. -/
def FV.divNat : FV → ℕ → FV
  | .inf, _ => .inf
  | .fin a, n => .fin (a / (n : ℚ))

/-- Division of a value by a rational, as in `v / (U[i]*U[j])`.  Every
divisor actually reached is positive (a product of unigram entries of
in-vocabulary ids), so the finite/0 corner is unreachable. -/
def FV.divQ : FV → ℚ → FV
  | .inf, _ => .inf
  | .fin a, q => .fin (a / q)

/-- IEEE reciprocal 1/x on FV: 1/(+Inf) = 0 and 1/(+0) = +Inf (the zero
reachable here is +0, a sum of no terms). -/
def FV.inv : FV → FV
  | .inf => .fin 0
  | .fin a => if a = 0 then .inf else .fin a⁻¹

/-- The weight `1/displacement` computed by SkipgramPs with
`displacement := math.Abs(float64(j))`: for j = 0 this is 1/0 = +Inf. -/
def oneDivNat (j : ℕ) : FV :=
  if j = 0 then .inf else .fin (1 / (j : ℚ))

/-- Lookup in an association list, modelling a read from a Go
map[string]V held as a list of key/value pairs. -/
def alookup {β : Type} : List (String × β) → String → Option β
  | [], _ => none
  | (k, v) :: r, t => if k = t then some v else alookup r t

/-- The distinct tokens of a sequence in first-occurrence order: the order
in which MkDoc's loop would assign ids (spec section 3: ids are assigned
in first-occurrence order). -/
def vocabList : List String → List String
  | [] => []
  | t :: ts => t :: (vocabList ts).filter (fun s => s ≠ t)

/-- Pair each entry of a list with consecutive indices starting at i. -/
def enumFrom : ℕ → List String → List (String × ℕ)
  | _, [] => []
  | i, t :: ts => (t, i) :: enumFrom (i + 1) ts

/-- Model of the Go struct Doc: the token sequence together with the
TokenIndices map; the map is an Option because a Go map can be nil
(its zero value), which is readable but panics on assignment. -/
structure Doc where
  Tokens : List String
  TokenIndices : Option (List (String × ℕ))
deriving DecidableEq

/-- Reading `D.TokenIndices[t]` in Go: a read from a nil map or a missing
key yields the zero value 0. -/
def Doc.idOf (D : Doc) (t : String) : ℕ :=
  ((D.TokenIndices.bind (fun l => alookup l t)).getD 0)

/-- `len(D.TokenIndices)`; a nil map has length 0. -/
def Doc.vocabLen (D : Doc) : ℕ :=
  match D.TokenIndices with
  | none => 0
  | some l => l.length

/-- A well-formed document: the given tokens together with the canonical
first-occurrence index map that the spec's VocabIndex contract describes
(section 3).  The code's own MkDoc panics on any non-empty input (see
MkDoc below), so a usable Doc must be built this way by a caller. -/
def mkDocOk (tokens : List String) : Doc :=
  ⟨tokens, some (enumFrom 0 (vocabList tokens))⟩

/-- Writing `m[k] = v` in Go: assignment to a nil map panics (modelled as
an error); on a non-nil map the binding is added. -/
def mapAssign {β : Type} :
    Option (List (String × β)) → String → β → Except Unit (Option (List (String × β)))
  | none, _, _ => .error ()
  | some l, k, v => .ok (some (l ++ [(k, v)]))

/-- The loop body of MkDoc: for each token, if it is not yet indexed,
assign it the next id (which panics if the map is nil). -/
def mkDocLoop :
    Option (List (String × ℕ)) → ℕ → List String → Except Unit (Option (List (String × ℕ)))
  | m, _, [] => .ok m
  | m, i, t :: ts =>
    match m.bind (fun l => alookup l t) with
    | some _ => mkDocLoop m i ts
    | none =>
      match mapAssign m t i with
      | .error e => .error e
      | .ok m2 => mkDocLoop m2 (i + 1) ts

/-- Model of MkDoc (lib.go): the returned Doc starts as the zero value,
so its TokenIndices map is nil; the loop then assigns into that nil map.
The Except models the Go panic on nil-map assignment. -/
def MkDoc (text : List String) : Except Unit Doc :=
  match mkDocLoop none 0 text with
  | .error e => .error e
  | .ok m => .ok ⟨text, m⟩

/-- One step of the UnigramPs counting loop: rtn[i]++ . -/
def bumpAt (l : List ℚ) (i : ℕ) : List ℚ :=
  l.set i (l.getD i 0 + 1)

/-- The counting loop of UnigramPs: a slice of len(D.TokenIndices) zeros,
then rtn[D.TokenIndices[t]]++ for each token t. -/
def countsVec (D : Doc) : List ℚ :=
  D.Tokens.foldl (fun acc t => bumpAt acc (D.idOf t)) (List.replicate D.vocabLen 0)

/-- Model of Doc.UnigramPs (lib.go): each count is divided by len(rtn),
which is the vocabulary size (not the token count). -/
def UnigramPs (D : Doc) : List ℚ :=
  (countsVec D).map (fun x => x / (D.vocabLen : ℚ))

/-- U[i] as read by PMIs. -/
def unigramAt (D : Doc) (i : ℕ) : ℚ :=
  (UnigramPs D).getD i 0

/-- The focus positions of the SkipgramPs loop: i runs from maxJuxt while
i < len(Tokens) - maxJuxt - 1 (integer arithmetic; an empty range when
the bound is not above maxJuxt, which truncated ℕ subtraction captures). -/
def focusList (D : Doc) (m : ℕ) : List ℕ :=
  List.range' m (D.Tokens.length - m - 1 - m)

/-- The sequence of Set operations performed by the SkipgramPs loops, in
order: for each focus i, for each offset j in [0, maxJuxt), for each of
b = Tokens[i+j] and b = Tokens[i-j], the cell (id a, id b) is increased
by 1/|j| (which is +Inf when j = 0). -/
def updates (D : Doc) (m : ℕ) : List (ℕ × ℕ × FV) :=
  (focusList D m).flatMap (fun i =>
    (List.range m).flatMap (fun j =>
      [ (D.idOf (D.Tokens.getD i ""), D.idOf (D.Tokens.getD (i + j) ""), oneDivNat j),
        (D.idOf (D.Tokens.getD i ""), D.idOf (D.Tokens.getD (i - j) ""), oneDivNat j) ]))

/-- Apply one accumulation `rtn.Set(a, b, rtn.At(a, b) + w)` to the
matrix, viewed extensionally. -/
def applyUpd (M : ℕ → ℕ → FV) (u : ℕ × ℕ × FV) : ℕ → ℕ → FV :=
  fun p q => if p = u.1 ∧ q = u.2.1 then (M p q).add u.2.2 else M p q

/-- The accumulated co-occurrence matrix before normalization. -/
def skipAcc (D : Doc) (m : ℕ) : ℕ → ℕ → FV :=
  (updates D m).foldl applyUpd (fun _ _ => .fin 0)

/-- Model of Doc.SkipgramPs (lib.go): accumulate, then divide every
non-zero cell by len(D.Tokens).  Dividing every cell is extensionally the
same, since 0 divided by anything is 0, matching DoNonZero touching only
non-zero cells. -/
def SkipgramPs (D : Doc) (m : ℕ) : ℕ → ℕ → FV :=
  fun p q => (skipAcc D m p q).divNat D.Tokens.length

/-- The co-occurrence matrix as the claim for SkipgramPs words it: the
offset j = 0 is skipped (no 1/0), offsets j in [1, maxJuxt) contribute
1/j to both cells, and non-zero cells are then divided by the token
count.  Stated from the claim text, for comparison with SkipgramPs. -/
def claimSkipgramPs (D : Doc) (m : ℕ) : ℕ → ℕ → FV :=
  fun p q =>
    (((focusList D m).flatMap (fun i =>
      (List.range' 1 (m - 1)).flatMap (fun j =>
        [ (D.idOf (D.Tokens.getD i ""), D.idOf (D.Tokens.getD (i + j) ""), oneDivNat j),
          (D.idOf (D.Tokens.getD i ""), D.idOf (D.Tokens.getD (i - j) ""), oneDivNat j) ]))).foldl
      applyUpd (fun _ _ => .fin 0) p q).divNat D.Tokens.length

/-- Model of Doc.PMIs (lib.go).  The code replaces every non-zero cell v
of the co-occurrence matrix with log(v / (U[i]*U[j])) and leaves absent
cells absent.  A cell is represented in log-argument form: `some x` means
the cell holds the value log x, `none` means the cell is absent (zero).
This is exact: the only arithmetic the code later performs on these
values is addition, which is multiplication of the arguments. -/
def PMIs (D : Doc) (m : ℕ) : ℕ → ℕ → Option FV :=
  fun i j =>
    if SkipgramPs D m i j = .fin 0 then none
    else some ((SkipgramPs D m i j).divQ (unigramAt D i * unigramAt D j))

/-- The row aggregation of Incidency.Of: DoRowNonZero sums the PMI values
of row i, i.e. sums log x over the row's cells.  In log-argument form the
sum of the row is log of the product of the arguments; this function
returns that product. -/
def rowProd (D : Doc) (m i : ℕ) : FV :=
  (List.range D.vocabLen).foldl
    (fun acc j => match PMIs D m i j with | none => acc | some x => acc.mul x) (.fin 1)

/-- The value of a sum of logarithms whose arguments have product p, when
that value is exactly representable in FV: log 1 = 0 and log(+Inf) =
+Inf; other products would have an irrational logarithm and yield none.
(The theorems below show only the two exact cases are reachable.) -/
def sumLogVal : FV → Option FV :=
  fun p => if p = .fin 1 then some (.fin 0) else if p = .inf then some .inf else none

/-- The incidence score Incidency.Of stores for term t (in its local
map): the row sum sigma is computed, `I[t] /= float64(len(I))` divides
the stored copy, but `I[t] = 1 / v` then overwrites it using the value v
captured before the division, so the final score is 1/sigma. -/
def incidencyOf (D : Doc) (m : ℕ) (t : String) : Option FV :=
  (sumLogVal (rowProd D m (D.idOf t))).map FV.inv

/-- The incidence score as the claim words it: the row sum divided by the
vocabulary size, then inverted.  Stated from the claim text, for
comparison with incidencyOf. -/
def claimIncidencyOf (D : Doc) (m : ℕ) (t : String) : Option FV :=
  (sumLogVal (rowProd D m (D.idOf t))).map (fun s => (s.divNat D.vocabLen).inv)

/-- The score a sorted key list is ordered by in Incidency.Keywords:
I[k], with 0 for a missing key (no key is missing in the code's use). -/
def scoreOf (I : List (String × ℚ)) (t : String) : ℚ :=
  (alookup I t).getD 0

/-- Model of Incidency.Keywords (lib.go): collect the keys, sort them
ascending by score, and if n is non-nil slice to the first *n mod len(I)
entries.  When len(I) = 0 and n is non-nil, `k %= len(I)` is an integer
division by zero, a Go runtime panic, modelled as an error. -/
def Keywords (I : List (String × ℚ)) (n : Option ℕ) : Except Unit (List String) :=
  let sorted := (I.map Prod.fst).insertionSort (fun a b => scoreOf I a ≤ scoreOf I b)
  match n with
  | none => .ok sorted
  | some k => if I.length = 0 then .error () else .ok (sorted.take (k % I.length))

/-- Dot product of two embedding vectors (gonum mat.Dot). -/
def dotQ (a b : List ℚ) : ℚ :=
  (List.zipWith (fun x y => x * y) a b).sum

/-- The vector a mapping holds for a term. -/
def vecOf (M : List (String × List ℚ)) (t : String) : List ℚ :=
  (alookup M t).getD []

/-- Model of VecMapping.CosSim: the dot product of the two terms'
vectors. -/
def CosSim (M : List (String × List ℚ)) (a b : String) : ℚ :=
  dotQ (vecOf M a) (vecOf M b)

/-- Model of VecMapping.Constellation (lib.go).  A nil n panics at the
final `V[:*n]` dereference; a non-nil n with an empty mapping panics at
`*n %= len(m)` (integer division by zero).  Otherwise the vocabulary is
sorted ascending by similarity to t and the first *n mod len(m) entries
are returned. -/
def Constellation (M : List (String × List ℚ)) (t : String) (n : Option ℕ) :
    Except Unit (List String) :=
  match n with
  | none => .error ()
  | some k =>
    if M.length = 0 then .error ()
    else .ok (((M.map Prod.fst).insertionSort
      (fun a b => CosSim M t a ≤ CosSim M t b)).take (k % M.length))

/-- The inner sum of Adjacency.Between for term k against corpus pair
(P, Q): sigma += dot(P[k],Q[k]) / dot(P[t],Q[t]) over the shared terms t. -/
def passSigma (P Q : List (String × List ℚ)) (V : List String) (k : String) : ℚ :=
  (V.map (fun t => dotQ (vecOf P k) (vecOf Q k) / dotQ (vecOf P t) (vecOf Q t))).sum

/-- The final update `A[k] = (A[k]*n + sigma) / n` of Adjacency.Between
on its first (and, for two corpora, only) inner iteration, where
n = float64(q) = 0: a positive sigma divided by zero is +Inf; a zero or
negative sigma would give NaN or -Inf, which FV does not represent,
hence none. -/
def divByZeroPos : FV → Option FV
  | .inf => some .inf
  | .fin a => if 0 < a then some .inf else none

/-- Model of Adjacency.Between (lib.go) for two mappings, following the
Go slice semantics literally.  `Qs := append(M[:p], M[p+1:]...)` for
p = 0 copies M[1] over M[0] in the shared backing array, so the shared
vocabulary V ends up being the keys of M1 that survive the membership
test (all of them) together with the keys of M0 also present in M1, and
the final pass (p = 1) compares M1 with the overwritten M[0] = M1.  Each
per-term score is sigma / len(V) divided by n = 0. -/
def Between (M0 M1 : List (String × List ℚ)) : List (String × Option FV) :=
  let V := vocabList
    (((M0.map Prod.fst).filter (fun k => (alookup M1 k).isSome)) ++ M1.map Prod.fst)
  V.map (fun k => (k, divByZeroPos (.fin (passSigma M1 M1 V k / (V.length : ℚ)))))

/-- Collect a list of optional values; none if any is none. -/
def seqOptFV : List (Option FV) → Option (List FV)
  | [] => some []
  | none :: _ => none
  | some x :: r => (seqOptFV r).map (fun l => x :: l)

/-- Model of Adjacency.DocSim (lib.go): the mean of the stored adjacency
scores.  An empty map gives 0/0 = NaN (none); a score FV cannot
represent (NaN or -Inf, see divByZeroPos) also makes the mean
unrepresentable. -/
def DocSim (A : List (String × Option FV)) : Option FV :=
  match seqOptFV (A.map Prod.snd) with
  | none => none
  | some vs => if A.length = 0 then none else some ((vs.foldl FV.add (.fin 0)).divNat A.length)

end Litevec

namespace Litevec

lemma add_inf_right (x : FV) : x.add .inf = .inf := by cases x <;> rfl

lemma mul_inf_left (x : FV) : FV.mul .inf x = .inf := by cases x <;> rfl

lemma add_inf_left (x : FV) : FV.add .inf x = .inf := by cases x <;> rfl

lemma mul_inf_right (x : FV) : x.mul .inf = .inf := by cases x <;> rfl

lemma foldl_applyUpd_const (l : List (ℕ × ℕ × FV)) (M : ℕ → ℕ → FV) (p q : ℕ)
    (h : ∀ u ∈ l, ¬(p = u.1 ∧ q = u.2.1)) :
    l.foldl applyUpd M p q = M p q := by
  induction l generalizing M with
  | nil => rfl
  | cons u r ih =>
    rw [List.foldl_cons, ih _ (fun v hv => h v (List.mem_cons_of_mem u hv))]
    exact if_neg (h u (List.mem_cons_self _ _))

lemma skipAcc_ne_zero (D : Doc) (m p q : ℕ) (h : skipAcc D m p q ≠ .fin 0) :
    ∃ u ∈ updates D m, p = u.1 ∧ q = u.2.1 := by
  by_contra hc
  have hall : ∀ u ∈ updates D m, ¬(p = u.1 ∧ q = u.2.1) := fun u hu hpq => hc ⟨u, hu, hpq⟩
  exact h (by rw [skipAcc, foldl_applyUpd_const _ _ _ _ hall])

lemma updates_fst_focus (D : Doc) (m : ℕ) :
    ∀ u ∈ updates D m, ∃ i ∈ focusList D m, u.1 = D.idOf (D.Tokens.getD i "") := by
  intro u hu
  simp only [updates, List.mem_flatMap, List.mem_cons, List.not_mem_nil, or_false,
    List.mem_singleton] at hu
  obtain ⟨i, hi, j, hj, hu3⟩ := hu
  refine ⟨i, hi, ?_⟩
  rcases hu3 with h1 | h1 <;> subst h1 <;> rfl

lemma foldl_applyUpd_inf_pres (l : List (ℕ × ℕ × FV)) (M : ℕ → ℕ → FV) (p q : ℕ)
    (h : M p q = .inf) :
    l.foldl applyUpd M p q = .inf := by
  induction l generalizing M with
  | nil => exact h
  | cons u r ih =>
    rw [List.foldl_cons]
    apply ih
    by_cases hc : p = u.1 ∧ q = u.2.1
    · show (if p = u.1 ∧ q = u.2.1 then (M p q).add u.2.2 else M p q) = .inf
      rw [if_pos hc, h]
      exact add_inf_left _
    · show (if p = u.1 ∧ q = u.2.1 then (M p q).add u.2.2 else M p q) = .inf
      rw [if_neg hc]
      exact h

lemma foldl_applyUpd_inf_mem (l : List (ℕ × ℕ × FV)) (M : ℕ → ℕ → FV) (p q : ℕ)
    (h : (p, q, FV.inf) ∈ l) :
    l.foldl applyUpd M p q = .inf := by
  induction l generalizing M with
  | nil => cases h
  | cons u r ih =>
    rcases List.mem_cons.1 h with h1 | h2
    · rw [List.foldl_cons]
      apply foldl_applyUpd_inf_pres
      subst h1
      show (if p = p ∧ q = q then (M p q).add FV.inf else M p q) = .inf
      rw [if_pos ⟨rfl, rfl⟩]
      exact add_inf_right _
    · rw [List.foldl_cons]
      exact ih _ h2

lemma diag_inf_mem_updates (D : Doc) (m : ℕ) (hm : 0 < m) (i : ℕ) (hi : i ∈ focusList D m) :
    (D.idOf (D.Tokens.getD i ""), D.idOf (D.Tokens.getD i ""), FV.inf) ∈ updates D m := by
  simp only [updates, List.mem_flatMap]
  refine ⟨i, hi, 0, List.mem_range.2 hm, ?_⟩
  simp [oneDivNat]

lemma skip_inf_of_focus (D : Doc) (m : ℕ) (hm : 0 < m) (i : ℕ) (hi : i ∈ focusList D m) :
    SkipgramPs D m (D.idOf (D.Tokens.getD i "")) (D.idOf (D.Tokens.getD i "")) = .inf := by
  have h : skipAcc D m (D.idOf (D.Tokens.getD i "")) (D.idOf (D.Tokens.getD i "")) = .inf :=
    foldl_applyUpd_inf_mem _ _ _ _ (diag_inf_mem_updates D m hm i hi)
  rw [SkipgramPs, h]
  rfl

lemma mem_vocabList {t : String} {l : List String} (h : t ∈ l) : t ∈ vocabList l := by
  induction l with
  | nil => cases h
  | cons a ts ih =>
    rcases List.mem_cons.1 h with rfl | h2
    · exact List.mem_cons_self _ _
    · by_cases he : t = a
      · subst he
        exact List.mem_cons_self _ _
      · exact List.mem_cons_of_mem _ (List.mem_filter.2 ⟨ih h2, by simp [he]⟩)

lemma alookup_enumFrom :
    ∀ (s : List String) (t : String), t ∈ s →
      ∀ i0 : ℕ, ∃ j, alookup (enumFrom i0 s) t = some j ∧ j < i0 + s.length := by
  intro s
  induction s with
  | nil => intro t h; cases h
  | cons a ts ih =>
    intro t h i0
    by_cases he : a = t
    · refine ⟨i0, by simp [enumFrom, alookup, he], by simp only [List.length_cons]; omega⟩
    · have h2 : t ∈ ts := by
        rcases List.mem_cons.1 h with rfl | h2
        · exact absurd rfl he
        · exact h2
      obtain ⟨j, hj1, hj2⟩ := ih t h2 (i0 + 1)
      refine ⟨j, by simp [enumFrom, alookup, he, hj1], ?_⟩
      simp only [List.length_cons]
      omega

lemma enumFrom_length : ∀ (s : List String) (i0 : ℕ), (enumFrom i0 s).length = s.length := by
  intro s
  induction s with
  | nil => intro i0; rfl
  | cons a ts ih => intro i0; simp [enumFrom, ih]

lemma vocabLen_mkDocOk (tokens : List String) :
    (mkDocOk tokens).vocabLen = (vocabList tokens).length := by
  show (enumFrom 0 (vocabList tokens)).length = (vocabList tokens).length
  exact enumFrom_length _ _

lemma idOf_lt (tokens : List String) (t : String) (h : t ∈ tokens) :
    (mkDocOk tokens).idOf t < (mkDocOk tokens).vocabLen := by
  obtain ⟨j, hj1, hj2⟩ := alookup_enumFrom (vocabList tokens) t (mem_vocabList h) 0
  have he : (mkDocOk tokens).idOf t = j := by simp [mkDocOk, Doc.idOf, hj1]
  rw [he, vocabLen_mkDocOk]
  omega

lemma focus_getD_mem (D : Doc) (m i : ℕ) (hi : i ∈ focusList D m) :
    D.Tokens.getD i "" ∈ D.Tokens := by
  have h := List.mem_range'_1.1 hi
  have hlt : i < D.Tokens.length := by omega
  rw [List.getD_eq_getElem _ _ hlt]
  exact List.getElem_mem hlt

lemma foldl_pmi_inf_pres (D : Doc) (m i : ℕ) (l : List ℕ) (acc : FV) (h : acc = .inf) :
    l.foldl (fun acc j => match PMIs D m i j with | none => acc | some x => acc.mul x) acc
      = .inf := by
  induction l generalizing acc with
  | nil => exact h
  | cons a r ih =>
    rw [List.foldl_cons]
    apply ih
    subst h
    cases hx : PMIs D m i a with
    | none => simp [hx]
    | some x => simp [hx, mul_inf_left]

lemma foldl_pmi_inf_mem (D : Doc) (m i c : ℕ) (l : List ℕ) (acc : FV) (hc : c ∈ l)
    (h : PMIs D m i c = some .inf) :
    l.foldl (fun acc j => match PMIs D m i j with | none => acc | some x => acc.mul x) acc
      = .inf := by
  induction l generalizing acc with
  | nil => cases hc
  | cons a r ih =>
    rcases List.mem_cons.1 hc with rfl | h2
    · rw [List.foldl_cons]
      apply foldl_pmi_inf_pres
      simp [h, mul_inf_right]
    · rw [List.foldl_cons]
      exact ih _ h2

lemma foldl_pmi_none (D : Doc) (m i : ℕ) (l : List ℕ) (acc : FV)
    (h : ∀ j ∈ l, PMIs D m i j = none) :
    l.foldl (fun acc j => match PMIs D m i j with | none => acc | some x => acc.mul x) acc
      = acc := by
  induction l generalizing acc with
  | nil => rfl
  | cons a r ih =>
    rw [List.foldl_cons]
    have ha : PMIs D m i a = none := h a (List.mem_cons_self _ _)
    rw [show (match PMIs D m i a with | none => acc | some x => acc.mul x) = acc by simp [ha]]
    exact ih acc (fun j hj => h j (List.mem_cons_of_mem _ hj))

lemma rowProd_inf (D : Doc) (m i : ℕ) (hin : i < D.vocabLen)
    (h : PMIs D m i i = some .inf) :
    rowProd D m i = .inf :=
  foldl_pmi_inf_mem D m i i _ _ (List.mem_range.2 hin) h

lemma updates_one_diag (D : Doc) : ∀ u ∈ updates D 1, u.1 = u.2.1 := by
  intro u hu
  simp only [updates, List.mem_flatMap, List.mem_range, List.mem_cons, List.not_mem_nil,
    or_false, List.mem_singleton] at hu
  obtain ⟨i, hi, j, hj, hu3⟩ := hu
  have hj0 : j = 0 := Nat.lt_one_iff.1 hj
  subst hj0
  rcases hu3 with h1 | h1 <;> subst h1 <;> simp

lemma foldl_applyUpd_symm (l : List (ℕ × ℕ × FV)) (hdiag : ∀ u ∈ l, u.1 = u.2.1)
    (M : ℕ → ℕ → FV) (hM : ∀ p q, M p q = M q p) (p q : ℕ) :
    l.foldl applyUpd M p q = l.foldl applyUpd M q p := by
  induction l generalizing M with
  | nil => exact hM p q
  | cons u r ih =>
    apply ih (fun v hv => hdiag v (List.mem_cons_of_mem u hv))
    intro a b
    have hu : u.1 = u.2.1 := hdiag u (List.mem_cons_self _ _)
    show (if a = u.1 ∧ b = u.2.1 then (M a b).add u.2.2 else M a b)
      = (if b = u.1 ∧ a = u.2.1 then (M b a).add u.2.2 else M b a)
    by_cases hc : a = u.1 ∧ b = u.2.1
    · have hc2 : b = u.1 ∧ a = u.2.1 := ⟨hc.2.trans hu.symm, hc.1.trans hu⟩
      rw [if_pos hc, if_pos hc2, hM a b]
    · have hc2 : ¬(b = u.1 ∧ a = u.2.1) := fun hx => hc ⟨hx.2.trans hu.symm, hx.1.trans hu⟩
      rw [if_neg hc, if_neg hc2, hM a b]

/-- C1: SkipgramPs does not skip the offset j = 0: at every focus
position the code adds 1/|0| = +Inf to the diagonal cell of the focus
token (twice), so on the document a b c d with maxJuxt = 1 the cell
(id b, id b) is +Inf, whereas the claimed accumulation (offset j = 0
skipped) leaves every cell of this document at 0. -/
theorem C1_skipgram_zero_offset_infinity :
    SkipgramPs (mkDocOk ["a", "b", "c", "d"]) 1 1 1 = FV.inf ∧
    claimSkipgramPs (mkDocOk ["a", "b", "c", "d"]) 1 1 1 = FV.fin 0 := by
  norm_num +decide [SkipgramPs, claimSkipgramPs, skipAcc, updates, focusList, applyUpd,
    oneDivNat, mkDocOk, Doc.idOf, Doc.vocabLen, vocabList, enumFrom, alookup, FV.add,
    FV.divNat, List.range', List.range_succ]

/-- C2: UnigramPs divides each term count by the vocabulary size, not by
the total token count: on the two-token document a a it returns [2]
(2 occurrences / vocabulary size 1), whose entries sum to 2, not 1. -/
theorem C2_unigram_divides_by_vocab_size :
    UnigramPs (mkDocOk ["a", "a"]) = [2] ∧ (UnigramPs (mkDocOk ["a", "a"])).sum ≠ 1 := by
  norm_num [UnigramPs, countsVec, bumpAt, mkDocOk, Doc.idOf, Doc.vocabLen, vocabList,
    enumFrom, alookup]

/-- C3: MkDoc returns successfully exactly on the empty token sequence
(yielding the zero-valued Doc with a nil index map, vocabulary size 0);
on any non-empty sequence the first unindexed token is assigned into the
nil TokenIndices map, which panics. -/
theorem C3_mkdoc_panics_on_nonempty (text : List String) :
    (text = [] → MkDoc text = .ok ⟨[], none⟩) ∧
    (text ≠ [] → MkDoc text = .error ()) ∧
    (∀ d, MkDoc text = .ok d → d.vocabLen = 0) := by
  refine ⟨?_, ?_, ?_⟩
  · rintro rfl
    rfl
  · intro h
    cases text with
    | nil => exact absurd rfl h
    | cons t ts => rfl
  · intro d hd
    cases text with
    | nil =>
      have : d = ⟨[], none⟩ := by
        have h2 : Except.ok (ε := Unit) (⟨[], none⟩ : Doc) = .ok d := hd
        cases h2
        rfl
      rw [this]
      rfl
    | cons t ts =>
      have h2 : Except.error (α := Doc) () = .ok d := hd
      cases h2

theorem C3_mkdoc_panics_on_nonempty_witness :
    (["a"] ≠ ([] : List String)) ∧ MkDoc ["a"] = .error () ∧
    MkDoc [] = .ok ⟨[], none⟩ :=
  ⟨by decide, (C3_mkdoc_panics_on_nonempty ["a"]).2.1 (by decide),
    (C3_mkdoc_panics_on_nonempty []).1 rfl⟩

/-- C4: PMIs only rewrites the non-zero cells of the co-occurrence
matrix, replacing each non-zero value v with log(v / (U[i]*U[j])) (held
in log-argument form), and leaves zero/absent cells absent, so the PMI
matrix's non-zero pattern is a subset of the co-occurrence matrix's. -/
theorem C4_pmi_sparsity_preserving (tokens : List String) (m : ℕ) (hm : 0 < m) (i j : ℕ) :
    (SkipgramPs (mkDocOk tokens) m i j = .fin 0 → PMIs (mkDocOk tokens) m i j = none) ∧
    (SkipgramPs (mkDocOk tokens) m i j ≠ .fin 0 →
      PMIs (mkDocOk tokens) m i j =
        some ((SkipgramPs (mkDocOk tokens) m i j).divQ
          (unigramAt (mkDocOk tokens) i * unigramAt (mkDocOk tokens) j))) ∧
    (PMIs (mkDocOk tokens) m i j ≠ none → SkipgramPs (mkDocOk tokens) m i j ≠ .fin 0) := by
  unfold PMIs
  by_cases h : SkipgramPs (mkDocOk tokens) m i j = .fin 0 <;> simp [h]

theorem C4_pmi_sparsity_preserving_witness :
    0 < 1 ∧
    ((SkipgramPs (mkDocOk ["a", "b", "c", "d"]) 1 1 1 = .fin 0 →
        PMIs (mkDocOk ["a", "b", "c", "d"]) 1 1 1 = none) ∧
     (SkipgramPs (mkDocOk ["a", "b", "c", "d"]) 1 1 1 ≠ .fin 0 →
        PMIs (mkDocOk ["a", "b", "c", "d"]) 1 1 1 =
          some ((SkipgramPs (mkDocOk ["a", "b", "c", "d"]) 1 1 1).divQ
            (unigramAt (mkDocOk ["a", "b", "c", "d"]) 1 *
             unigramAt (mkDocOk ["a", "b", "c", "d"]) 1))) ∧
     (PMIs (mkDocOk ["a", "b", "c", "d"]) 1 1 1 ≠ none →
        SkipgramPs (mkDocOk ["a", "b", "c", "d"]) 1 1 1 ≠ .fin 0)) :=
  ⟨Nat.one_pos, C4_pmi_sparsity_preserving ["a", "b", "c", "d"] 1 Nat.one_pos 1 1⟩

/-- C5 counterexample: on the six-token document a b c d e f with window
maxJuxt = 2 the co-occurrence matrix is not symmetric: the only focus
position is 2, so cell (id c, id b) receives weight 1 (normalized: 1/6)
while cell (id b, id c) stays 0. -/
theorem C5_cooccurrence_not_symmetric :
    SkipgramPs (mkDocOk ["a", "b", "c", "d", "e", "f"]) 2 2 1 ≠
    SkipgramPs (mkDocOk ["a", "b", "c", "d", "e", "f"]) 2 1 2 := by
  norm_num +decide [SkipgramPs, skipAcc, updates, focusList, applyUpd, oneDivNat,
    mkDocOk, Doc.idOf, Doc.vocabLen, vocabList, enumFrom, alookup, FV.add, FV.divNat,
    List.range', List.range_succ]

/-- C5 amended: weight is only ever added to the focus row, so symmetry
holds only degenerately.  For window maxJuxt = 1 every update lands on a
diagonal cell and the matrix is symmetric for every document; for
maxJuxt at least 2 symmetry can fail (see the counterexample). -/
theorem C5_symmetric_for_window_one (D : Doc) (p q : ℕ) :
    SkipgramPs D 1 p q = SkipgramPs D 1 q p := by
  have h := foldl_applyUpd_symm (updates D 1) (updates_one_diag D) (fun _ _ => FV.fin 0)
    (fun _ _ => rfl) p q
  unfold SkipgramPs skipAcc
  rw [h]

/-- C6 counterexample: with vocabulary size 0 and a non-nil requested
count, Keywords does not return an empty sequence: the statement
k %= len(I) is an integer division by zero, a runtime panic. -/
theorem C6_keywords_empty_vocab_panics :
    Keywords ([] : List (String × ℚ)) (some 3) = .error () ∧
    Keywords ([] : List (String × ℚ)) (some 3) ≠ .ok [] := by
  refine ⟨rfl, fun h => ?_⟩
  rw [show Keywords ([] : List (String × ℚ)) (some 3) = .error () from rfl] at h
  exact Except.noConfusion h

/-- C6 amended: on an empty corpus Keywords returns an empty sequence
only for a nil requested count; every non-nil count reaches the modulo
by the zero vocabulary size and panics. -/
theorem C6_keywords_empty_vocab_amended :
    Keywords ([] : List (String × ℚ)) none = .ok [] ∧
    ∀ k : ℕ, Keywords ([] : List (String × ℚ)) (some k) = .error () := by
  exact ⟨rfl, fun k => rfl⟩

/-- C7: for a non-empty incidence map and a non-nil requested count k,
Keywords returns k mod len(I) terms (hence at most that many), sorted
ascending by incidence score. -/
theorem C7_keywords_sorted (I : List (String × ℚ)) (k : ℕ) (h : I ≠ []) :
    ∃ l, Keywords I (some k) = .ok l ∧ l.length ≤ k % I.length ∧
      List.Sorted (fun a b => scoreOf I a ≤ scoreOf I b) l := by
  have hlen : I.length ≠ 0 := fun h0 => h (List.length_eq_zero.1 h0)
  refine ⟨((I.map Prod.fst).insertionSort (fun a b => scoreOf I a ≤ scoreOf I b)).take
    (k % I.length), ?_, ?_, ?_⟩
  · simp [Keywords, hlen]
  · rw [List.length_take]
    exact min_le_left _ _
  · haveI ht : IsTotal String (fun a b => scoreOf I a ≤ scoreOf I b) :=
      ⟨fun a b => le_total _ _⟩
    haveI htr : IsTrans String (fun a b => scoreOf I a ≤ scoreOf I b) :=
      ⟨fun a b c h1 h2 => le_trans h1 h2⟩
    exact List.Pairwise.sublist (List.take_sublist _ _) (List.sorted_insertionSort _ _)

theorem C7_keywords_sorted_witness :
    ([("a", (2:ℚ)), ("b", 1)] : List (String × ℚ)) ≠ [] ∧
    ∃ l, Keywords [("a", (2:ℚ)), ("b", 1)] (some 5) = .ok l ∧
      l.length ≤ 5 % ([("a", (2:ℚ)), ("b", 1)] : List (String × ℚ)).length ∧
      List.Sorted (fun a b =>
        scoreOf [("a", (2:ℚ)), ("b", 1)] a ≤ scoreOf [("a", (2:ℚ)), ("b", 1)] b) l :=
  ⟨by simp, C7_keywords_sorted _ 5 (by simp)⟩

/-- C9: for a non-empty mapping, a term of the mapping and a non-nil
count k, Constellation sorts the vocabulary ascending by similarity to
the term and returns a window of exactly k mod len(m) of its terms; in
particular k = 0 yields an empty result and k above the vocabulary size
wraps around instead of erroring. -/
theorem C9_constellation_sorted (M : List (String × List ℚ)) (t : String) (k : ℕ)
    (h : M ≠ []) (hterm : (alookup M t).isSome) :
    ∃ l, Constellation M t (some k) = .ok l ∧ l.length = k % M.length ∧
      List.Sorted (fun a b => CosSim M t a ≤ CosSim M t b) l ∧
      ∀ x ∈ l, x ∈ M.map Prod.fst := by
  have hlen : M.length ≠ 0 := fun h0 => h (List.length_eq_zero.1 h0)
  have hpos : 0 < M.length := Nat.pos_of_ne_zero hlen
  have hperm :=
    List.perm_insertionSort (fun a b => CosSim M t a ≤ CosSim M t b) (M.map Prod.fst)
  have hslen : ((M.map Prod.fst).insertionSort
      (fun a b => CosSim M t a ≤ CosSim M t b)).length = M.length := by
    rw [hperm.length_eq, List.length_map]
  refine ⟨((M.map Prod.fst).insertionSort (fun a b => CosSim M t a ≤ CosSim M t b)).take
    (k % M.length), ?_, ?_, ?_, ?_⟩
  · simp [Constellation, hlen]
  · rw [List.length_take, hslen]
    exact min_eq_left (le_of_lt (Nat.mod_lt _ hpos))
  · haveI ht : IsTotal String (fun a b => CosSim M t a ≤ CosSim M t b) :=
      ⟨fun a b => le_total _ _⟩
    haveI htr : IsTrans String (fun a b => CosSim M t a ≤ CosSim M t b) :=
      ⟨fun a b c h1 h2 => le_trans h1 h2⟩
    exact List.Pairwise.sublist (List.take_sublist _ _) (List.sorted_insertionSort _ _)
  · intro x hx
    exact hperm.mem_iff.1 ((List.take_sublist _ _).subset hx)

theorem C9_constellation_sorted_witness :
    ([("a", [(1:ℚ)]), ("b", [2])] : List (String × List ℚ)) ≠ [] ∧
    (alookup ([("a", [(1:ℚ)]), ("b", [2])] : List (String × List ℚ)) "a").isSome = true ∧
    ∃ l, Constellation [("a", [(1:ℚ)]), ("b", [2])] "a" (some 3) = .ok l ∧
      l.length = 3 % ([("a", [(1:ℚ)]), ("b", [2])] : List (String × List ℚ)).length ∧
      List.Sorted (fun a b =>
        CosSim [("a", [(1:ℚ)]), ("b", [2])] "a" a ≤
        CosSim [("a", [(1:ℚ)]), ("b", [2])] "a" b) l ∧
      ∀ x ∈ l, x ∈ ([("a", [(1:ℚ)]), ("b", [2])] : List (String × List ℚ)).map Prod.fst :=
  ⟨by simp, by rfl, C9_constellation_sorted _ "a" 3 (by simp) (by rfl)⟩

/-- C8: the incidence score Incidency.Of computes agrees with the claimed
formula (invert the row sum divided by the vocabulary size).  Although
the code's division by len(I) is dead (overwritten by the inversion of
the captured pre-division value), the two formulas agree extensionally:
for a positive window every non-empty PMI row contains the +Inf diagonal
cell produced by the j = 0 skip-gram offset, so every row sum is either
0 (empty row, product of arguments 1) or +Inf (product +Inf), and both
are fixed points of division by the vocabulary size. -/
theorem C8_incidence_score_formula (tokens : List String) (m : ℕ) (hm : 0 < m)
    (t : String) (ht : t ∈ vocabList tokens) :
    incidencyOf (mkDocOk tokens) m t ≠ none ∧
    incidencyOf (mkDocOk tokens) m t = claimIncidencyOf (mkDocOk tokens) m t := by
  by_cases hex : ∃ j, PMIs (mkDocOk tokens) m ((mkDocOk tokens).idOf t) j ≠ none
  · obtain ⟨j, hj⟩ := hex
    have hskip : SkipgramPs (mkDocOk tokens) m ((mkDocOk tokens).idOf t) j ≠ .fin 0 := by
      intro h0
      exact hj (by simp [PMIs, h0])
    have hacc : skipAcc (mkDocOk tokens) m ((mkDocOk tokens).idOf t) j ≠ .fin 0 := by
      intro h0
      apply hskip
      rw [SkipgramPs, h0]
      show FV.fin ((0 : ℚ) / ((mkDocOk tokens).Tokens.length : ℚ)) = .fin 0
      rw [zero_div]
    obtain ⟨u, hu, hpu, _⟩ := skipAcc_ne_zero (mkDocOk tokens) m _ j hacc
    obtain ⟨i0, hi0, hfst⟩ := updates_fst_focus (mkDocOk tokens) m u hu
    have hidt : (mkDocOk tokens).idOf t =
        (mkDocOk tokens).idOf ((mkDocOk tokens).Tokens.getD i0 "") := hpu.trans hfst
    have hskipdiag : SkipgramPs (mkDocOk tokens) m ((mkDocOk tokens).idOf t)
        ((mkDocOk tokens).idOf t) = .inf := by
      rw [hidt]
      exact skip_inf_of_focus (mkDocOk tokens) m hm i0 hi0
    have hpmid : PMIs (mkDocOk tokens) m ((mkDocOk tokens).idOf t)
        ((mkDocOk tokens).idOf t) = some .inf := by
      rw [PMIs]
      simp [hskipdiag]
      rfl
    have hlt : (mkDocOk tokens).idOf t < (mkDocOk tokens).vocabLen := by
      rw [hidt]
      exact idOf_lt tokens _ (focus_getD_mem (mkDocOk tokens) m i0 hi0)
    have hrow : rowProd (mkDocOk tokens) m ((mkDocOk tokens).idOf t) = .inf :=
      rowProd_inf (mkDocOk tokens) m _ hlt hpmid
    have e1 : incidencyOf (mkDocOk tokens) m t = some (.fin 0) := by
      rw [incidencyOf, hrow]
      rfl
    have e2 : claimIncidencyOf (mkDocOk tokens) m t = some (.fin 0) := by
      rw [claimIncidencyOf, hrow]
      rfl
    refine ⟨by rw [e1]; exact Option.noConfusion, e1.trans e2.symm⟩
  · have hall : ∀ j, PMIs (mkDocOk tokens) m ((mkDocOk tokens).idOf t) j = none := by
      intro j
      by_contra hne
      exact hex ⟨j, hne⟩
    have hrow : rowProd (mkDocOk tokens) m ((mkDocOk tokens).idOf t) = .fin 1 :=
      foldl_pmi_none (mkDocOk tokens) m _ _ _ (fun j _ => hall j)
    have e1 : incidencyOf (mkDocOk tokens) m t = some .inf := by
      rw [incidencyOf, hrow]
      rfl
    have e2 : claimIncidencyOf (mkDocOk tokens) m t = some .inf := by
      rw [claimIncidencyOf, hrow]
      show some ((FV.divNat (.fin 0) (mkDocOk tokens).vocabLen).inv) = some .inf
      rw [show FV.divNat (.fin 0) (mkDocOk tokens).vocabLen = .fin 0 by
        rw [FV.divNat]
        rw [zero_div]]
      rfl
    refine ⟨by rw [e1]; exact Option.noConfusion, e1.trans e2.symm⟩

theorem C8_incidence_score_formula_witness :
    0 < 1 ∧ "a" ∈ vocabList ["a"] ∧
    (incidencyOf (mkDocOk ["a"]) 1 "a" ≠ none ∧
     incidencyOf (mkDocOk ["a"]) 1 "a" = claimIncidencyOf (mkDocOk ["a"]) 1 "a") :=
  ⟨Nat.one_pos, by simp [vocabList], C8_incidence_score_formula ["a"] 1 Nat.one_pos "a"
    (by simp [vocabList])⟩

/-- C10: passing two identical embedding mappings to Adjacency.Between
does NOT avoid internal division by zero: the running-mean update
A[k] = (A[k]*n + sigma) / n uses n = float64(q) = 0 on the first inner
iteration, so every per-term score is a positive sigma divided by zero,
+Inf, and DocSim of the resulting map is +Inf, not finite. -/
theorem C10_adjacency_division_by_zero :
    Between [("a", [(1:ℚ)]), ("b", [2])] [("a", [(1:ℚ)]), ("b", [2])] =
      [("a", some FV.inf), ("b", some FV.inf)] ∧
    DocSim (Between [("a", [(1:ℚ)]), ("b", [2])] [("a", [(1:ℚ)]), ("b", [2])]) =
      some FV.inf := by
  norm_num +decide [Between, DocSim, passSigma, divByZeroPos, seqOptFV, vocabList, alookup,
    vecOf, dotQ, FV.add, FV.divNat]

end Litevec
